import Mathlib

/-!
Shallow embedding of the `nac` arithmetic-expression evaluator
(`src/lib.rs`): the tokenizer `tokenize`, the in-place precedence
resolver `Group::resolve` / `Group::parse_params`, and the recursive
evaluator `Expression::eval`, together with proofs about them.

Modelling conventions:
* Rust `f64` values are represented by exact rationals (`ℚ`).  All
  concrete inputs appearing in the theorems below stay inside the
  subdomain where IEEE-754 double arithmetic is exact, so the rational
  model agrees with the Rust code there.  Cases where `f64` and `ℚ`
  genuinely differ (division by zero, irrational `powf` results,
  `NaN`) are never relied upon by any theorem in this file.
* `anyhow` string errors are represented by the inductive `Err`, one
  constructor per distinct error message in the source.
* Loops and non-structural recursions are embedded as fuel-indexed
  functions (`Option` is `none` when the fuel runs out) together with
  proofs that a concrete fuel bound always suffices; the fuel-free
  wrappers (`tokenize`, `resolve`, `Expression.eval`) are obtained
  with `Option.get` from those sufficiency proofs, so everything
  computes by kernel reduction.
-/

set_option maxRecDepth 4096

/-- Error kinds of the evaluator, one per distinct `anyhow!` message in
`src/lib.rs`:
* `missingRHS` — "missing right hand side" (`parse_params`)
* `missingLHS` — "missing left hand side" (`parse_params`)
* `unexpectedExpression` — "unexpected expression {exp:?}" (`parse_params`)
* `unresolvedExpression` — "unresolved expression {group:?}" (`eval`)
* `unhandledExpression` — "unhandled expression {self:?}" (`eval` catch-all)
* `invalidLiteral` — `val.parse::<f64>()` failure in `eval`
* `invalidHex` — `u64::from_str_radix(buf, 16)` failure in `tokenize`
* `unterminatedGroup` — "someone forgot a )" (`tokenize`)
* `sneakyParen` — "sneaky {char}" (`tokenize`)
* `unexpectedChar c` — "unexpected character {char}" (`tokenize`) -/
inductive Err where
  | missingRHS
  | missingLHS
  | unexpectedExpression
  | unresolvedExpression
  | unhandledExpression
  | invalidLiteral
  | invalidHex
  | unterminatedGroup
  | sneakyParen
  | unexpectedChar (c : Char)
deriving DecidableEq, Repr

/-- The `Expression` enum of `src/lib.rs`.  `Unit` is the literal
variant (text kept as a string until evaluation); each operator
variant carries the two `Option<Box<Expression>>` fields of
`OpParams` (`lhs` first, then `rhs`); `Group` carries the `Vec<Expression>`
body of the `Group` struct. -/
inductive Expression where
  | Unit : String → Expression
  | Add : Option Expression → Option Expression → Expression
  | Sub : Option Expression → Option Expression → Expression
  | Mul : Option Expression → Option Expression → Expression
  | Div : Option Expression → Option Expression → Expression
  | Mod : Option Expression → Option Expression → Expression
  | Pow : Option Expression → Option Expression → Expression
  | Root : Option Expression → Option Expression → Expression
  | Group : List Expression → Expression
deriving Repr

mutual

/-- Termination measure for evaluation: a positive size where an unset
(`none`) operand counts the same as the literal `Unit "0"` that
resolution may substitute for it, so resolution never increases the
total weight of a group body. -/
def weight : Expression → Nat
  | .Unit _ => 1
  | .Add l r => 1 + weightOpt l + weightOpt r
  | .Sub l r => 1 + weightOpt l + weightOpt r
  | .Mul l r => 1 + weightOpt l + weightOpt r
  | .Div l r => 1 + weightOpt l + weightOpt r
  | .Mod l r => 1 + weightOpt l + weightOpt r
  | .Pow l r => 1 + weightOpt l + weightOpt r
  | .Root l r => 1 + weightOpt l + weightOpt r
  | .Group body => 1 + weightList body

def weightOpt : Option Expression → Nat
  | none => 1
  | some e => weight e

def weightList : List Expression → Nat
  | [] => 0
  | e :: rest => weight e + weightList rest

end

mutual

/-- Texts of all `Unit` (literal) nodes in an expression, including
those nested inside operator operands and group bodies. -/
def unitTexts : Expression → List String
  | .Unit s => [s]
  | .Add l r => unitTextsOpt l ++ unitTextsOpt r
  | .Sub l r => unitTextsOpt l ++ unitTextsOpt r
  | .Mul l r => unitTextsOpt l ++ unitTextsOpt r
  | .Div l r => unitTextsOpt l ++ unitTextsOpt r
  | .Mod l r => unitTextsOpt l ++ unitTextsOpt r
  | .Pow l r => unitTextsOpt l ++ unitTextsOpt r
  | .Root l r => unitTextsOpt l ++ unitTextsOpt r
  | .Group body => unitTextsList body

def unitTextsOpt : Option Expression → List String
  | none => []
  | some e => unitTexts e

def unitTextsList : List Expression → List String
  | [] => []
  | e :: rest => unitTexts e ++ unitTextsList rest

end


/-! ### Numeric model

Rust `f64` values are modelled as exact rationals.  `parseFloat` models
`str::parse::<f64>` on the literal shapes the tokenizer can emit
(digit strings with optional embedded dots; no sign or exponent is
ever produced by `tokenize`), `powf` models `f64::powf` on the
exactly-rational subdomain, and `fmod` models the `%` operator
(truncated-division remainder). -/

/-- Numeric value of a string of decimal digit characters. -/
def digitsToNat (l : List Char) : Nat :=
  l.foldl (fun a c => 10 * a + (c.toNat - 48)) 0

/-- Modelled from `str::parse::<f64>`, restricted to the grammar
subset reachable from this tokenizer's literals: `digits`,
`digits.digits`, `digits.` and `.digits` parse (at least one digit is
required overall); anything else — in particular a text with more than
one `.` — fails.  The value is exact where Rust would round to the
nearest double. -/
def parseFloatList (cs : List Char) : Option ℚ :=
  match cs.dropWhile Char.isDigit with
  | [] =>
    if (cs.takeWhile Char.isDigit).isEmpty then none
    else some (digitsToNat (cs.takeWhile Char.isDigit))
  | '.' :: frac =>
    if frac.all Char.isDigit && !((cs.takeWhile Char.isDigit).isEmpty && frac.isEmpty) then
      some ((digitsToNat (cs.takeWhile Char.isDigit) : ℚ) +
        (digitsToNat frac : ℚ) / (10 : ℚ) ^ frac.length)
    else none
  | _ => none

def parseFloat (s : String) : Option ℚ := parseFloatList s.data

/-- Smallest `r` with `r ^ d = n`, when one exists. -/
def natRootExact (n d : Nat) : Option Nat :=
  (List.range (n + 2)).find? (fun r => r ^ d = n)

/-- Modelled from `f64::powf` under the exact-rational abstraction of
`f64`:  defined faithfully where the mathematical result is rational —
integer exponents, and exact roots of non-negative rationals — and `0`
elsewhere (those cases have irrational or non-finite `f64` results
that no theorem in this file depends on). -/
def powf (a b : ℚ) : ℚ :=
  if b.den = 1 then a ^ b.num
  else if a.num < 0 then 0
  else
    match natRootExact a.num.natAbs b.den, natRootExact a.den b.den with
    | some rn, some rd => ((rn : ℚ) / (rd : ℚ)) ^ b.num
    | _, _ => 0

/-- Truncation toward zero. -/
def ftrunc (q : ℚ) : ℤ := Int.tdiv q.num (q.den : ℤ)

/-- Modelled from Rust's `f64` `%` (remainder with truncated division).
At `b = 0` the Rust result is `NaN`; the model returns `a` there,
a case no theorem depends on. -/
def fmod (a b : ℚ) : ℚ := a - b * (ftrunc (a / b) : ℚ)

/-! ### `Group::parse_params`

`parse_params` removes the right neighbour of the operator at
`expIdx` (error if there is none), removes the left neighbour unless
the operator sits at position `0`, and overwrites the operator's two
operand slots.  `bindOp` is the final `match exp { ... }` of the Rust
function, operating at the operator's shifted index. -/

/-- The operand-binding `match` at the end of `Group::parse_params`:
`Add`/`Sub` substitute an implicit literal zero for a missing left
operand; the five other operators fail with "missing left hand side";
a non-operator at the operator position is "unexpected expression". -/
def bindOp (body2 : List Expression) (idx2 : Nat) (lhs : Option Expression)
    (rhs : Expression) : Except Err (List Expression) :=
  match body2[idx2]? with
  | some (.Add _ _) =>
    .ok (body2.set idx2 (.Add (some (lhs.getD (.Unit "0"))) (some rhs)))
  | some (.Sub _ _) =>
    .ok (body2.set idx2 (.Sub (some (lhs.getD (.Unit "0"))) (some rhs)))
  | some (.Mul _ _) =>
    match lhs with
    | none => .error .missingLHS
    | some l => .ok (body2.set idx2 (.Mul (some l) (some rhs)))
  | some (.Div _ _) =>
    match lhs with
    | none => .error .missingLHS
    | some l => .ok (body2.set idx2 (.Div (some l) (some rhs)))
  | some (.Mod _ _) =>
    match lhs with
    | none => .error .missingLHS
    | some l => .ok (body2.set idx2 (.Mod (some l) (some rhs)))
  | some (.Pow _ _) =>
    match lhs with
    | none => .error .missingLHS
    | some l => .ok (body2.set idx2 (.Pow (some l) (some rhs)))
  | some (.Root _ _) =>
    match lhs with
    | none => .error .missingLHS
    | some l => .ok (body2.set idx2 (.Root (some l) (some rhs)))
  | _ => .error .unexpectedExpression

/-- `Group::parse_params`.  An out-of-range index (which would make
Rust's `Vec::remove` panic, and never occurs from `resolve`) is
mapped to the missing-operand error. -/
def parseParams (body : List Expression) (expIdx : Nat) : Except Err (List Expression) :=
  if expIdx + 1 = body.length then .error .missingRHS
  else
    match body[expIdx + 1]? with
    | none => .error .missingRHS
    | some rhs =>
      if expIdx = 0 then
        bindOp (body.eraseIdx (expIdx + 1)) 0 none rhs
      else
        bindOp ((body.eraseIdx (expIdx + 1)).eraseIdx (expIdx - 1)) (expIdx - 1)
          (body.eraseIdx (expIdx + 1))[expIdx - 1]? rhs

theorem weight_pos (e : Expression) : 1 ≤ weight e := by
  cases e <;> simp only [weight] <;> omega

theorem weightOpt_pos (o : Option Expression) : 1 ≤ weightOpt o := by
  cases o with
  | none => simp [weightOpt]
  | some e => simpa [weightOpt] using weight_pos e

theorem weightList_set :
    ∀ (l : List Expression) (i : Nat) (x old : Expression), l[i]? = some old →
      weightList (l.set i x) + weight old = weightList l + weight x := by
  intro l
  induction l with
  | nil => intro i x old h; simp at h
  | cons a t ih =>
    intro i x old h
    cases i with
    | zero =>
      simp only [List.getElem?_cons_zero, Option.some.injEq] at h
      subst h
      simp only [List.set, weightList]
      omega
    | succ n =>
      simp only [List.getElem?_cons_succ] at h
      simp only [List.set, weightList]
      have := ih n x old h
      omega

theorem weightList_eraseIdx :
    ∀ (l : List Expression) (i : Nat) (old : Expression), l[i]? = some old →
      weightList (l.eraseIdx i) + weight old = weightList l := by
  intro l
  induction l with
  | nil => intro i x h; simp at h
  | cons a t ih =>
    intro i old h
    cases i with
    | zero =>
      simp only [List.getElem?_cons_zero, Option.some.injEq] at h
      subst h
      simp only [List.eraseIdx, weightList]
      omega
    | succ n =>
      simp only [List.getElem?_cons_succ] at h
      simp only [List.eraseIdx, weightList]
      have := ih n old h
      omega

theorem weightList_eraseIdx_le (l : List Expression) (i : Nat) :
    weightList (l.eraseIdx i) ≤ weightList l := by
  cases h : l[i]? with
  | none =>
    have : l.length ≤ i := by
      by_contra hlt
      push_neg at hlt
      rw [List.getElem?_eq_getElem hlt] at h
      simp at h
    rw [List.eraseIdx_of_length_le this]
  | some old =>
    have := weightList_eraseIdx l i old h
    omega

theorem length_lt_of_getElem?_eq_some {l : List Expression} {i : Nat} {x : Expression}
    (h : l[i]? = some x) : i < l.length := by
  by_contra hge
  push_neg at hge
  rw [List.getElem?_eq_none hge] at h
  simp at h

theorem length_eraseIdx_eq {α : Type _} {l : List α} {i : Nat} (h : i < l.length) :
    (l.eraseIdx i).length = l.length - 1 := by
  induction l generalizing i with
  | nil => simp at h
  | cons a t ih =>
    cases i with
    | zero => simp [List.eraseIdx]
    | succ n =>
      simp only [List.length_cons, Nat.succ_lt_succ_iff] at h
      simp only [List.eraseIdx, List.length_cons, ih h]
      omega

theorem length_eraseIdx_le {α : Type _} (l : List α) (i : Nat) :
    (l.eraseIdx i).length ≤ l.length := by
  induction l generalizing i with
  | nil => simp [List.eraseIdx]
  | cons a t ih =>
    cases i with
    | zero => simp [List.eraseIdx]
    | succ n =>
      simp only [List.eraseIdx, List.length_cons]
      exact Nat.succ_le_succ (ih n)

theorem bindOp_ok {b : List Expression} {i : Nat} {lhsO : Option Expression}
    {rhs : Expression} {b' : List Expression} (h : bindOp b i lhsO rhs = .ok b') :
    ∃ old nw, b[i]? = some old ∧ b' = b.set i nw ∧ 3 ≤ weight old ∧
      weight nw = 1 + weight (lhsO.getD (.Unit "0")) + weight rhs := by
  unfold bindOp at h
  cases hb : b[i]? with
  | none => rw [hb] at h; simp at h
  | some old =>
    rw [hb] at h
    cases old with
    | Unit s => simp at h
    | Group g => simp at h
    | Add o1 o2 =>
      have h' : Except.ok (ε := Err)
          (b.set i (.Add (some (lhsO.getD (.Unit "0"))) (some rhs))) = .ok b' := h
      cases h'
      refine ⟨_, _, rfl, rfl, ?_, ?_⟩
      · have h1 := weightOpt_pos o1; have h2 := weightOpt_pos o2
        simp only [weight]; omega
      · simp [weight, weightOpt]
    | Sub o1 o2 =>
      have h' : Except.ok (ε := Err)
          (b.set i (.Sub (some (lhsO.getD (.Unit "0"))) (some rhs))) = .ok b' := h
      cases h'
      refine ⟨_, _, rfl, rfl, ?_, ?_⟩
      · have h1 := weightOpt_pos o1; have h2 := weightOpt_pos o2
        simp only [weight]; omega
      · simp [weight, weightOpt]
    | Mul o1 o2 =>
      cases lhsO with
      | none => simp at h
      | some l =>
        have h' : Except.ok (ε := Err) (b.set i (.Mul (some l) (some rhs))) = .ok b' := h
        cases h'
        refine ⟨_, _, rfl, rfl, ?_, ?_⟩
        · have h1 := weightOpt_pos o1; have h2 := weightOpt_pos o2
          simp only [weight]; omega
        · simp [weight, weightOpt]
    | Div o1 o2 =>
      cases lhsO with
      | none => simp at h
      | some l =>
        have h' : Except.ok (ε := Err) (b.set i (.Div (some l) (some rhs))) = .ok b' := h
        cases h'
        refine ⟨_, _, rfl, rfl, ?_, ?_⟩
        · have h1 := weightOpt_pos o1; have h2 := weightOpt_pos o2
          simp only [weight]; omega
        · simp [weight, weightOpt]
    | Mod o1 o2 =>
      cases lhsO with
      | none => simp at h
      | some l =>
        have h' : Except.ok (ε := Err) (b.set i (.Mod (some l) (some rhs))) = .ok b' := h
        cases h'
        refine ⟨_, _, rfl, rfl, ?_, ?_⟩
        · have h1 := weightOpt_pos o1; have h2 := weightOpt_pos o2
          simp only [weight]; omega
        · simp [weight, weightOpt]
    | Pow o1 o2 =>
      cases lhsO with
      | none => simp at h
      | some l =>
        have h' : Except.ok (ε := Err) (b.set i (.Pow (some l) (some rhs))) = .ok b' := h
        cases h'
        refine ⟨_, _, rfl, rfl, ?_, ?_⟩
        · have h1 := weightOpt_pos o1; have h2 := weightOpt_pos o2
          simp only [weight]; omega
        · simp [weight, weightOpt]
    | Root o1 o2 =>
      cases lhsO with
      | none => simp at h
      | some l =>
        have h' : Except.ok (ε := Err) (b.set i (.Root (some l) (some rhs))) = .ok b' := h
        cases h'
        refine ⟨_, _, rfl, rfl, ?_, ?_⟩
        · have h1 := weightOpt_pos o1; have h2 := weightOpt_pos o2
          simp only [weight]; omega
        · simp [weight, weightOpt]

theorem parseParams_shrink {body : List Expression} {i : Nat} {body' : List Expression}
    (h : parseParams body i = .ok body') :
    body'.length < body.length ∧ weightList body' ≤ weightList body := by
  unfold parseParams at h
  split at h
  · simp at h
  · rename_i hne
    split at h
    · simp at h
    · rename_i rhs hr
      have hlt : i + 1 < body.length := length_lt_of_getElem?_eq_some hr
      have e0 := weightList_eraseIdx body (i + 1) rhs hr
      have hl1 : (body.eraseIdx (i + 1)).length = body.length - 1 := length_eraseIdx_eq hlt
      split at h
      · -- expIdx = 0
        obtain ⟨old, nw, hold, hset, hw3, hwnw⟩ := bindOp_ok h
        have e2 := weightList_set _ 0 nw old hold
        rw [← hset] at e2
        have hwn : weight nw = 2 + weight rhs := by
          simpa [weight] using hwnw
        have hlen : body'.length = (body.eraseIdx (i + 1)).length := by
          rw [hset, List.length_set]
        constructor
        · omega
        · omega
      · -- expIdx ≠ 0
        obtain ⟨old, nw, hold, hset, hw3, hwnw⟩ := bindOp_ok h
        have hlt2 : i - 1 < ((body.eraseIdx (i + 1)).eraseIdx (i - 1)).length :=
          length_lt_of_getElem?_eq_some hold
        have hlt1 : i - 1 < (body.eraseIdx (i + 1)).length :=
          lt_of_lt_of_le hlt2 (length_eraseIdx_le _ _)
        have hlhs : (body.eraseIdx (i + 1))[i - 1]? =
            some ((body.eraseIdx (i + 1))[i - 1]) := List.getElem?_eq_getElem hlt1
        have e1 := weightList_eraseIdx (body.eraseIdx (i + 1)) (i - 1) _ hlhs
        have e2 := weightList_set _ (i - 1) nw old hold
        rw [← hset] at e2
        rw [hlhs] at hwnw
        simp only [Option.getD_some] at hwnw
        have hlen : body'.length = ((body.eraseIdx (i + 1)).eraseIdx (i - 1)).length := by
          rw [hset, List.length_set]
        have hle2 : ((body.eraseIdx (i + 1)).eraseIdx (i - 1)).length ≤
            (body.eraseIdx (i + 1)).length := length_eraseIdx_le _ _
        constructor
        · omega
        · omega

/-! ### `Group::resolve`

Three sequential while-loops, one per precedence tier; each loop looks
for the leftmost element matching its tier predicate and reduces it
with `parse_params`.  Note the source's predicates test
`params.lhs.is_none() || params.lhs.is_none()` — the `lhs` field twice,
never `rhs`; the embedding reproduces this verbatim. -/

/-- Tier-1 predicate of `Group::resolve` (`Pow`, `Root`). -/
def unresolvedTierA : Expression → Bool
  | .Pow lhs _ => lhs.isNone || lhs.isNone
  | .Root lhs _ => lhs.isNone || lhs.isNone
  | _ => false

/-- Tier-2 predicate of `Group::resolve` (`Mul`, `Div`, `Mod`). -/
def unresolvedTierB : Expression → Bool
  | .Mul lhs _ => lhs.isNone || lhs.isNone
  | .Div lhs _ => lhs.isNone || lhs.isNone
  | .Mod lhs _ => lhs.isNone || lhs.isNone
  | _ => false

/-- Tier-3 predicate of `Group::resolve` (`Add`, `Sub`). -/
def unresolvedTierC : Expression → Bool
  | .Add lhs _ => lhs.isNone || lhs.isNone
  | .Sub lhs _ => lhs.isNone || lhs.isNone
  | _ => false

/-- One tier loop of `Group::resolve`, fuel-indexed: find the leftmost
element satisfying the tier predicate (`iter().position`), reduce it
with `parse_params`, repeat; `none` when the fuel runs out. -/
def resolveTierFuel (p : Expression → Bool) : Nat → List Expression →
    Option (Except Err (List Expression))
  | 0, _ => none
  | fuel + 1, body =>
    match body.findIdx? p with
    | none => some (.ok body)
    | some idx =>
      match parseParams body idx with
      | .error e => some (.error e)
      | .ok body2 => resolveTierFuel p fuel body2

theorem resolveTierFuel_isSome (p : Expression → Bool) :
    ∀ (fuel : Nat) (body : List Expression), body.length < fuel →
      (resolveTierFuel p fuel body).isSome = true := by
  intro fuel
  induction fuel with
  | zero => intro body h; omega
  | succ n ih =>
    intro body h
    cases hidx : body.findIdx? p with
    | none => simp [resolveTierFuel, hidx]
    | some idx =>
      cases hpp : parseParams body idx with
      | error e => simp [resolveTierFuel, hidx, hpp]
      | ok body2 =>
        simp only [resolveTierFuel, hidx, hpp]
        exact ih body2 (by
          have := (parseParams_shrink hpp).1
          omega)

/-- One tier loop of `Group::resolve`: total, since a fuel of
`body.length + 1` always suffices. -/
def resolveTier (p : Expression → Bool) (body : List Expression) :
    Except Err (List Expression) :=
  (resolveTierFuel p (body.length + 1) body).get
    (resolveTierFuel_isSome p (body.length + 1) body (Nat.lt_succ_self _))

/-- `Group::resolve`: the three tier loops in sequence (`Pow`/`Root`,
then `Mul`/`Div`/`Mod`, then `Add`/`Sub`), each `?`-propagating its
error.  The Rust function mutates `self.body`; the embedding returns
the new body. -/
def resolve (body : List Expression) : Except Err (List Expression) :=
  match resolveTier unresolvedTierA body with
  | .error e => .error e
  | .ok b1 =>
    match resolveTier unresolvedTierB b1 with
    | .error e => .error e
    | .ok b2 => resolveTier unresolvedTierC b2

theorem resolveTierFuel_weight (p : Expression → Bool) :
    ∀ (fuel : Nat) (body body' : List Expression),
      resolveTierFuel p fuel body = some (.ok body') →
      weightList body' ≤ weightList body := by
  intro fuel
  induction fuel with
  | zero => intro body body' h; simp [resolveTierFuel] at h
  | succ n ih =>
    intro body body' h
    rw [resolveTierFuel] at h
    split at h
    · simp only [Option.some.injEq, Except.ok.injEq] at h
      subst h
      exact le_refl _
    · split at h
      · simp at h
      · rename_i idx hidx body2 hpp
        exact le_trans (ih body2 body' h) (parseParams_shrink hpp).2

theorem resolveTierFuel_eq_some (p : Expression → Bool) (body : List Expression) :
    resolveTierFuel p (body.length + 1) body = some (resolveTier p body) :=
  (Option.some_get _).symm

theorem resolveTier_weight {p : Expression → Bool} {body body' : List Expression}
    (h : resolveTier p body = .ok body') : weightList body' ≤ weightList body := by
  have h2 := resolveTierFuel_eq_some p body
  rw [h] at h2
  exact resolveTierFuel_weight p _ body body' h2

theorem resolve_weight {body body' : List Expression}
    (h : resolve body = .ok body') : weightList body' ≤ weightList body := by
  unfold resolve at h
  split at h
  · simp at h
  · rename_i b1 h1
    split at h
    · simp at h
    · rename_i b2 h2
      exact le_trans (le_trans (resolveTier_weight h) (resolveTier_weight h2))
        (resolveTier_weight h1)

/-! ### `Expression::eval`

The recursive evaluator: literals parse their stored text, fully
resolved operator nodes evaluate left then right and combine, groups
resolve their body and require it to have collapsed to exactly one
element, and everything else — an operator node with an unset
operand — is the catch-all "unhandled expression" internal error. -/

/-- Left-then-right evaluation of a binary node's operands, combining
the values with `f`; errors propagate, `none` (fuel exhaustion)
propagates. -/
def evalBin (l r : Option (Except Err ℚ)) (f : ℚ → ℚ → ℚ) :
    Option (Except Err ℚ) :=
  match l with
  | none => none
  | some (.error e) => some (.error e)
  | some (.ok a) =>
    match r with
    | none => none
    | some (.error e) => some (.error e)
    | some (.ok b) => some (.ok (f a b))

/-- Fuel-indexed `Expression::eval`.  The arms are those of the Rust
`match`: `Unit`, the seven operators each requiring both operands set,
`Group` (resolve, then demand a single element and evaluate it), and
the `_ => unhandled expression` catch-all. -/
def evalFuel : Nat → Expression → Option (Except Err ℚ)
  | 0, _ => none
  | fuel + 1, e =>
    match e with
    | .Unit s =>
      match parseFloat s with
      | some v => some (.ok v)
      | none => some (.error .invalidLiteral)
    | .Add (some l) (some r) => evalBin (evalFuel fuel l) (evalFuel fuel r) (fun a b => a + b)
    | .Sub (some l) (some r) => evalBin (evalFuel fuel l) (evalFuel fuel r) (fun a b => a - b)
    | .Mul (some l) (some r) => evalBin (evalFuel fuel l) (evalFuel fuel r) (fun a b => a * b)
    | .Div (some l) (some r) => evalBin (evalFuel fuel l) (evalFuel fuel r) (fun a b => a / b)
    | .Mod (some l) (some r) => evalBin (evalFuel fuel l) (evalFuel fuel r) fmod
    | .Pow (some l) (some r) => evalBin (evalFuel fuel l) (evalFuel fuel r) powf
    | .Root (some l) (some r) =>
      evalBin (evalFuel fuel l) (evalFuel fuel r) (fun a b => powf b (1 / a))
    | .Group body =>
      match resolve body with
      | .error er => some (.error er)
      | .ok [e0] => evalFuel fuel e0
      | .ok _ => some (.error .unresolvedExpression)
    | _ => some (.error .unhandledExpression)

theorem evalBin_isSome {l r : Option (Except Err ℚ)} (f : ℚ → ℚ → ℚ)
    (hl : l.isSome = true) (hr : r.isSome = true) :
    (evalBin l r f).isSome = true := by
  cases l with
  | none => simp at hl
  | some x =>
    cases x with
    | error e => simp [evalBin]
    | ok a =>
      cases r with
      | none => simp at hr
      | some y => cases y <;> simp [evalBin]

theorem evalFuel_isSome :
    ∀ (fuel : Nat) (e : Expression), weight e < fuel →
      (evalFuel fuel e).isSome = true := by
  intro fuel
  induction fuel with
  | zero => intro e h; omega
  | succ n ih =>
    intro e h
    cases e with
    | Unit s =>
      cases hp : parseFloat s <;> simp [evalFuel, hp]
    | Group body =>
      cases hres : resolve body with
      | error er => simp [evalFuel, hres]
      | ok body2 =>
        match body2 with
        | [] => simp [evalFuel, hres]
        | [e0] =>
          simp only [evalFuel, hres]
          apply ih
          have hw := resolve_weight hres
          simp only [weightList] at hw
          simp only [weight] at h
          omega
        | e0 :: e1 :: rest => simp [evalFuel, hres]
    | Add o1 o2 =>
      cases o1 with
      | none => simp [evalFuel]
      | some l =>
        cases o2 with
        | none => simp [evalFuel]
        | some r =>
          simp only [weight, weightOpt] at h
          have hl := weight_pos l; have hr := weight_pos r
          exact evalBin_isSome _ (ih l (by omega)) (ih r (by omega))
    | Sub o1 o2 =>
      cases o1 with
      | none => simp [evalFuel]
      | some l =>
        cases o2 with
        | none => simp [evalFuel]
        | some r =>
          simp only [weight, weightOpt] at h
          have hl := weight_pos l; have hr := weight_pos r
          exact evalBin_isSome _ (ih l (by omega)) (ih r (by omega))
    | Mul o1 o2 =>
      cases o1 with
      | none => simp [evalFuel]
      | some l =>
        cases o2 with
        | none => simp [evalFuel]
        | some r =>
          simp only [weight, weightOpt] at h
          have hl := weight_pos l; have hr := weight_pos r
          exact evalBin_isSome _ (ih l (by omega)) (ih r (by omega))
    | Div o1 o2 =>
      cases o1 with
      | none => simp [evalFuel]
      | some l =>
        cases o2 with
        | none => simp [evalFuel]
        | some r =>
          simp only [weight, weightOpt] at h
          have hl := weight_pos l; have hr := weight_pos r
          exact evalBin_isSome _ (ih l (by omega)) (ih r (by omega))
    | Mod o1 o2 =>
      cases o1 with
      | none => simp [evalFuel]
      | some l =>
        cases o2 with
        | none => simp [evalFuel]
        | some r =>
          simp only [weight, weightOpt] at h
          have hl := weight_pos l; have hr := weight_pos r
          exact evalBin_isSome _ (ih l (by omega)) (ih r (by omega))
    | Pow o1 o2 =>
      cases o1 with
      | none => simp [evalFuel]
      | some l =>
        cases o2 with
        | none => simp [evalFuel]
        | some r =>
          simp only [weight, weightOpt] at h
          have hl := weight_pos l; have hr := weight_pos r
          exact evalBin_isSome _ (ih l (by omega)) (ih r (by omega))
    | Root o1 o2 =>
      cases o1 with
      | none => simp [evalFuel]
      | some l =>
        cases o2 with
        | none => simp [evalFuel]
        | some r =>
          simp only [weight, weightOpt] at h
          have hl := weight_pos l; have hr := weight_pos r
          exact evalBin_isSome _ (ih l (by omega)) (ih r (by omega))

/-- `Expression::eval`: total, since a fuel of `weight e + 1` always
suffices. -/
def Expression.eval (e : Expression) : Except Err ℚ :=
  (evalFuel (weight e + 1) e).get (evalFuel_isSome (weight e + 1) e (Nat.lt_succ_self _))


theorem evalFuel_irrel :
    ∀ (n : Nat) (e : Expression) (m : Nat), weight e < n → weight e < m →
      evalFuel n e = evalFuel m e := by
  intro n
  induction n with
  | zero => intro e m h _; omega
  | succ n ih =>
    intro e m hn hm
    cases m with
    | zero => omega
    | succ m =>
      cases e with
      | Unit s => rfl
      | Group body =>
        cases hres : resolve body with
        | error er => simp [evalFuel, hres]
        | ok body2 =>
          match body2 with
          | [] => simp [evalFuel, hres]
          | [e0] =>
            simp only [evalFuel, hres]
            have hw := resolve_weight hres
            simp only [weightList] at hw
            simp only [weight] at hn hm
            exact ih e0 m (by omega) (by omega)
          | e0 :: e1 :: r2 => simp [evalFuel, hres]
      | Add o1 o2 =>
        cases o1 with
        | none => cases o2 <;> rfl
        | some l =>
          cases o2 with
          | none => rfl
          | some r =>
            simp only [weight, weightOpt] at hn hm
            have h1 := weight_pos l; have h2 := weight_pos r
            show evalBin (evalFuel n l) (evalFuel n r) _ =
              evalBin (evalFuel m l) (evalFuel m r) _
            rw [ih l m (by omega) (by omega), ih r m (by omega) (by omega)]
      | Sub o1 o2 =>
        cases o1 with
        | none => cases o2 <;> rfl
        | some l =>
          cases o2 with
          | none => rfl
          | some r =>
            simp only [weight, weightOpt] at hn hm
            have h1 := weight_pos l; have h2 := weight_pos r
            show evalBin (evalFuel n l) (evalFuel n r) _ =
              evalBin (evalFuel m l) (evalFuel m r) _
            rw [ih l m (by omega) (by omega), ih r m (by omega) (by omega)]
      | Mul o1 o2 =>
        cases o1 with
        | none => cases o2 <;> rfl
        | some l =>
          cases o2 with
          | none => rfl
          | some r =>
            simp only [weight, weightOpt] at hn hm
            have h1 := weight_pos l; have h2 := weight_pos r
            show evalBin (evalFuel n l) (evalFuel n r) _ =
              evalBin (evalFuel m l) (evalFuel m r) _
            rw [ih l m (by omega) (by omega), ih r m (by omega) (by omega)]
      | Div o1 o2 =>
        cases o1 with
        | none => cases o2 <;> rfl
        | some l =>
          cases o2 with
          | none => rfl
          | some r =>
            simp only [weight, weightOpt] at hn hm
            have h1 := weight_pos l; have h2 := weight_pos r
            show evalBin (evalFuel n l) (evalFuel n r) _ =
              evalBin (evalFuel m l) (evalFuel m r) _
            rw [ih l m (by omega) (by omega), ih r m (by omega) (by omega)]
      | Mod o1 o2 =>
        cases o1 with
        | none => cases o2 <;> rfl
        | some l =>
          cases o2 with
          | none => rfl
          | some r =>
            simp only [weight, weightOpt] at hn hm
            have h1 := weight_pos l; have h2 := weight_pos r
            show evalBin (evalFuel n l) (evalFuel n r) _ =
              evalBin (evalFuel m l) (evalFuel m r) _
            rw [ih l m (by omega) (by omega), ih r m (by omega) (by omega)]
      | Pow o1 o2 =>
        cases o1 with
        | none => cases o2 <;> rfl
        | some l =>
          cases o2 with
          | none => rfl
          | some r =>
            simp only [weight, weightOpt] at hn hm
            have h1 := weight_pos l; have h2 := weight_pos r
            show evalBin (evalFuel n l) (evalFuel n r) _ =
              evalBin (evalFuel m l) (evalFuel m r) _
            rw [ih l m (by omega) (by omega), ih r m (by omega) (by omega)]
      | Root o1 o2 =>
        cases o1 with
        | none => cases o2 <;> rfl
        | some l =>
          cases o2 with
          | none => rfl
          | some r =>
            simp only [weight, weightOpt] at hn hm
            have h1 := weight_pos l; have h2 := weight_pos r
            show evalBin (evalFuel n l) (evalFuel n r) _ =
              evalBin (evalFuel m l) (evalFuel m r) _
            rw [ih l m (by omega) (by omega), ih r m (by omega) (by omega)]

theorem evalFuel_eq_eval {fuel : Nat} {e : Expression} (h : weight e < fuel) :
    evalFuel fuel e = some (Expression.eval e) := by
  rw [evalFuel_irrel fuel e (weight e + 1) h (Nat.lt_succ_self _)]
  exact (Option.some_get _).symm

/-! ### `tokenize`

The scanner of `src/lib.rs`: whitespace is skipped; a decimal digit
starts a greedy digit-and-dot literal (with a `'0'` appended when the
text ends in `'.'`); `#` starts a greedy hexadecimal literal that is
converted to its decimal text form; each operator character emits its
placeholder node with both operands unset; `(` captures a balanced
substring (depth-counted) and tokenizes it recursively into a
`Group`; a stray `)` and any unrecognized character are errors. -/

/-- Character class of the greedy decimal-literal scan
(`nxt.is_digit(10) || nxt == &'.'`). -/
def isDigitDot (c : Char) : Bool := c.isDigit || c = '.'

/-- Character class of `char::is_digit(16)`. -/
def isHexDig (c : Char) : Bool :=
  c.isDigit || ('a' ≤ c && c ≤ 'f') || ('A' ≤ c && c ≤ 'F')

/-- Value of one hexadecimal digit character. -/
def hexDigitVal (c : Char) : Nat :=
  if c.isDigit then c.toNat - 48
  else if 'a' ≤ c && c ≤ 'f' then c.toNat - 87
  else if 'A' ≤ c && c ≤ 'F' then c.toNat - 55
  else 0

/-- Base-16 value of a hex-digit string, most significant digit first. -/
def hexListVal (l : List Char) : Nat :=
  l.foldl (fun a c => 16 * a + hexDigitVal c) 0

/-- `u64::MAX`: `u64::from_str_radix` fails beyond it. -/
def u64Max : Nat := 2 ^ 64 - 1

/-- Digit character for `d < 10`. -/
def decChar (d : Nat) : Char := Char.ofNat (48 + d)

/-- Decimal digit characters of `n` (fuel-indexed; `fuel = n + 1`
always suffices since `n / 10 < fuel` decreases). -/
def natDigitsAux : Nat → Nat → List Char
  | 0, _ => []
  | fuel + 1, n =>
    if n < 10 then [decChar n] else natDigitsAux fuel (n / 10) ++ [decChar (n % 10)]

/-- Modelled from `u64`'s `to_string`: the decimal digit text of `n`. -/
def natToString (n : Nat) : String := String.mk (natDigitsAux (n + 1) n)

/-- Text of a decimal literal token: the initial digit `c` plus the
greedy run of digits and dots after it, with `'0'` appended when the
result ends in `'.'` (Rust's `buf.ends_with('.')` fix-up). -/
def digitBuf (c : Char) (rest : List Char) : List Char :=
  if (c :: rest.takeWhile isDigitDot).getLast? = some '.' then
    (c :: rest.takeWhile isDigitDot) ++ ['0']
  else c :: rest.takeWhile isDigitDot

/-- The `'parse_paren` loop of `tokenize`: scan for the `)` matching
an already-consumed `(`, tracking nesting depth `sc`; returns the
captured substring (excluding that `)`) and the remainder after it,
or `none` at end of input ("someone forgot a )"). -/
def captureGroup : Nat → List Char → Option (List Char × List Char)
  | _, [] => none
  | sc, c :: rest =>
    if c = ')' then
      if sc = 0 then some ([], rest)
      else
        match captureGroup (sc - 1) rest with
        | some (buf, rem) => some (c :: buf, rem)
        | none => none
    else if c = '(' then
      match captureGroup (sc + 1) rest with
      | some (buf, rem) => some (c :: buf, rem)
      | none => none
    else
      match captureGroup sc rest with
      | some (buf, rem) => some (c :: buf, rem)
      | none => none

theorem captureGroup_concat :
    ∀ (cs : List Char) (sc : Nat) (buf rem : List Char),
      captureGroup sc cs = some (buf, rem) → buf ++ ')' :: rem = cs := by
  intro cs
  induction cs with
  | nil => intro sc buf rem h; simp [captureGroup] at h
  | cons c rest ih =>
    intro sc buf rem h
    rw [captureGroup] at h
    split at h
    · rename_i hc
      split at h
      · simp only [Option.some.injEq, Prod.mk.injEq] at h
        obtain ⟨h1, h2⟩ := h
        subst h1; subst h2; subst hc
        rfl
      · split at h
        · rename_i buf2 rem2 hcg
          simp only [Option.some.injEq, Prod.mk.injEq] at h
          obtain ⟨h1, h2⟩ := h
          subst h1; subst h2
          have := ih _ _ _ hcg
          simp [← this]
        · simp at h
    · split at h
      · split at h
        · rename_i buf2 rem2 hcg
          simp only [Option.some.injEq, Prod.mk.injEq] at h
          obtain ⟨h1, h2⟩ := h
          subst h1; subst h2
          have := ih _ _ _ hcg
          simp [← this]
        · simp at h
      · split at h
        · rename_i buf2 rem2 hcg
          simp only [Option.some.injEq, Prod.mk.injEq] at h
          obtain ⟨h1, h2⟩ := h
          subst h1; subst h2
          have := ih _ _ _ hcg
          simp [← this]
        · simp at h

/-- Prepend a freshly scanned token to the (fuel-indexed) result of
scanning the remaining input: errors and fuel exhaustion propagate. -/
def consToken (e : Expression) (rest : Option (Except Err (List Expression))) :
    Option (Except Err (List Expression)) :=
  match rest with
  | none => none
  | some (.error er) => some (.error er)
  | some (.ok es) => some (.ok (e :: es))

/-- Fuel-indexed `tokenize` over the character list of the input. -/
def tokenizeFuel : Nat → List Char → Option (Except Err (List Expression))
  | 0, _ => none
  | _ + 1, [] => some (.ok [])
  | fuel + 1, c :: rest =>
    if c.isWhitespace then tokenizeFuel fuel rest
    else if c.isDigit then
      consToken (.Unit (String.mk (digitBuf c rest)))
        (tokenizeFuel fuel (rest.dropWhile isDigitDot))
    else if c = '#' then
      if (rest.takeWhile isHexDig).isEmpty then some (.error .invalidHex)
      else if u64Max < hexListVal (rest.takeWhile isHexDig) then some (.error .invalidHex)
      else
        consToken (.Unit (natToString (hexListVal (rest.takeWhile isHexDig))))
          (tokenizeFuel fuel (rest.dropWhile isHexDig))
    else if c = '+' then consToken (.Add none none) (tokenizeFuel fuel rest)
    else if c = '-' then consToken (.Sub none none) (tokenizeFuel fuel rest)
    else if c = '*' then consToken (.Mul none none) (tokenizeFuel fuel rest)
    else if c = '/' then consToken (.Div none none) (tokenizeFuel fuel rest)
    else if c = '%' then consToken (.Mod none none) (tokenizeFuel fuel rest)
    else if c = '^' then consToken (.Pow none none) (tokenizeFuel fuel rest)
    else if c = '~' then consToken (.Root none none) (tokenizeFuel fuel rest)
    else if c = '(' then
      match captureGroup 0 rest with
      | none => some (.error .unterminatedGroup)
      | some (buf, rem) =>
        match tokenizeFuel fuel buf with
        | none => none
        | some (.error e) => some (.error e)
        | some (.ok body) => consToken (.Group body) (tokenizeFuel fuel rem)
    else if c = ')' then some (.error .sneakyParen)
    else some (.error (.unexpectedChar c))

theorem consToken_isSome (e : Expression) (o : Option (Except Err (List Expression))) :
    (consToken e o).isSome = o.isSome := by
  match o with
  | none => rfl
  | some (.error er) => rfl
  | some (.ok es) => rfl

theorem dropWhile_length_le {α : Type _} (p : α → Bool) (l : List α) :
    (l.dropWhile p).length ≤ l.length := by
  induction l with
  | nil => simp [List.dropWhile]
  | cons a t ih =>
    rw [List.dropWhile]
    split
    · exact le_trans ih (by simp)
    · exact le_refl _

theorem tokenizeFuel_isSome :
    ∀ (fuel : Nat) (cs : List Char), cs.length < fuel →
      (tokenizeFuel fuel cs).isSome = true := by
  intro fuel
  induction fuel with
  | zero => intro cs h; omega
  | succ n ih =>
    intro cs h
    match cs with
    | [] => simp [tokenizeFuel]
    | c :: rest =>
      simp only [List.length_cons] at h
      have hr : rest.length < n := by omega
      by_cases h1 : c.isWhitespace
      · simp only [tokenizeFuel, h1, if_true]
        exact ih rest hr
      · simp only [tokenizeFuel, h1, if_false, Bool.false_eq_true]
        by_cases h2 : c.isDigit
        · simp only [h2, if_true]
          rw [consToken_isSome]
          exact ih _ (lt_of_le_of_lt (dropWhile_length_le _ _) (by omega))
        · simp only [h2, if_false, Bool.false_eq_true]
          by_cases h3 : c = '#'
          · simp only [h3, if_true]
            split
            · simp
            · split
              · simp
              · rw [consToken_isSome]
                exact ih _ (lt_of_le_of_lt (dropWhile_length_le _ _) (by omega))
          · simp only [h3, if_false]
            by_cases h4 : c = '+'
            · simp only [h4, if_true]
              rw [consToken_isSome]; exact ih rest hr
            · simp only [h4, if_false]
              by_cases h5 : c = '-'
              · simp only [h5, if_true]
                rw [consToken_isSome]; exact ih rest hr
              · simp only [h5, if_false]
                by_cases h6 : c = '*'
                · simp only [h6, if_true]
                  rw [consToken_isSome]; exact ih rest hr
                · simp only [h6, if_false]
                  by_cases h7 : c = '/'
                  · simp only [h7, if_true]
                    rw [consToken_isSome]; exact ih rest hr
                  · simp only [h7, if_false]
                    by_cases h8 : c = '%'
                    · simp only [h8, if_true]
                      rw [consToken_isSome]; exact ih rest hr
                    · simp only [h8, if_false]
                      by_cases h9 : c = '^'
                      · simp only [h9, if_true]
                        rw [consToken_isSome]; exact ih rest hr
                      · simp only [h9, if_false]
                        by_cases h10 : c = '~'
                        · simp only [h10, if_true]
                          rw [consToken_isSome]; exact ih rest hr
                        · simp only [h10, if_false]
                          by_cases h11 : c = '('
                          · simp only [h11, if_true]
                            cases hcap : captureGroup 0 rest with
                            | none => simp
                            | some pr =>
                              obtain ⟨buf, rem⟩ := pr
                              have hcon := captureGroup_concat rest 0 buf rem hcap
                              have hlen : buf.length + 1 + rem.length = rest.length := by
                                rw [← hcon]
                                simp
                                omega
                              have hbuf := ih buf (by omega)
                              obtain ⟨v, hv⟩ := Option.isSome_iff_exists.mp hbuf
                              change (match tokenizeFuel n buf with
                                | none => none
                                | some (Except.error e) => some (Except.error e)
                                | some (Except.ok body) =>
                                  consToken (Expression.Group body)
                                    (tokenizeFuel n rem)).isSome = true
                              rw [hv]
                              cases v with
                              | error e => rfl
                              | ok body =>
                                show (consToken (Expression.Group body)
                                  (tokenizeFuel n rem)).isSome = true
                                rw [consToken_isSome]
                                exact ih rem (by omega)
                          · simp only [h11, if_false]
                            by_cases h12 : c = ')'
                            · simp [h12]
                            · simp [h12]

/-- `tokenize`: total, since a fuel of `length + 1` always suffices. -/
def tokenize (s : String) : Except Err (List Expression) :=
  (tokenizeFuel (s.data.length + 1) s.data).get
    (tokenizeFuel_isSome (s.data.length + 1) s.data (Nat.lt_succ_self _))

/-- `Expression::root`: tokenize the whole input and wrap the token
sequence in a `Group`. -/
def Expression.root (input : String) : Except Err Expression :=
  match tokenize input with
  | .error e => .error e
  | .ok body => .ok (.Group body)

/-- The combined parse-then-evaluate entry point (`Expression::root`
followed by `eval`, as `main` uses them): the spec's
`evaluate_string`. -/
def evaluateString (s : String) : Except Err ℚ :=
  match Expression.root s with
  | .error e => .error e
  | .ok root => root.eval

/-! ### Literal shape analysis

`litShapeOK` is the well-formedness condition of the extended decimal
grammar: every maximal digit-initiated run of digits and dots in the
input contains at most one `.`.  It is expressed as a three-state
scanner: `outside` a digit run, inside a run with no dot seen yet
(`run0`), inside a run after its dot (`run1`); a second dot inside a
run is the violation. -/

/-- Scanner state for `litShapeOK`. -/
inductive RunSt where
  | outside
  | run0
  | run1
deriving DecidableEq, Repr

/-- One step of the literal-shape scanner; `none` signals a second dot
inside one digit run. -/
def litShapeStep (st : RunSt) (c : Char) : Option RunSt :=
  if c.isDigit then
    some (match st with | .outside => .run0 | .run0 => .run0 | .run1 => .run1)
  else if c = '.' then
    match st with
    | .outside => some .outside
    | .run0 => some .run1
    | .run1 => none
  else some .outside

/-- Run the literal-shape scanner over a character list. -/
def litShapeRun : List Char → RunSt → Option RunSt
  | [], st => some st
  | c :: rest, st =>
    match litShapeStep st c with
    | none => none
    | some st2 => litShapeRun rest st2

/-- Input whose literals obey the extended decimal grammar: no
digit-initiated run of digits and dots contains more than one `.`. -/
def litShapeOK (s : String) : Bool := (litShapeRun s.data .outside).isSome

/-- Restrictiveness rank of a scanner state (`outside` least). -/
def rankSt : RunSt → Nat
  | .outside => 0
  | .run0 => 1
  | .run1 => 2

theorem litShapeStep_other {c : Char} (hd : ¬c.isDigit = true) (hp : ¬c = '.')
    (st : RunSt) : litShapeStep st c = some .outside := by
  simp [litShapeStep, hd, hp]

theorem litShapeRun_append (xs ys : List Char) (st : RunSt) :
    litShapeRun (xs ++ ys) st =
      match litShapeRun xs st with
      | none => none
      | some st2 => litShapeRun ys st2 := by
  induction xs generalizing st with
  | nil => simp [litShapeRun]
  | cons c t ih =>
    simp only [List.cons_append, litShapeRun]
    cases litShapeStep st c with
    | none => rfl
    | some st2 => exact ih st2

theorem litShapeRun_mono :
    ∀ (l : List Char) (st st2 : RunSt), rankSt st2 ≤ rankSt st →
      (litShapeRun l st).isSome = true → (litShapeRun l st2).isSome = true := by
  intro l
  induction l with
  | nil => intro st st2 _ _; simp [litShapeRun]
  | cons c t ih =>
    intro st st2 hrk hs
    simp only [litShapeRun] at hs ⊢
    by_cases hd : c.isDigit
    · simp only [litShapeStep, hd, if_true] at hs ⊢
      cases st <;> cases st2 <;>
        first
        | exact hs
        | exact ih _ _ (by decide) hs
        | exact absurd hrk (by decide)
    · by_cases hp : c = '.'
      · simp only [litShapeStep, hd, hp, if_false, if_true, Bool.false_eq_true] at hs ⊢
        cases st <;> cases st2 <;>
          first
          | exact hs
          | exact ih _ _ (by decide) hs
          | exact absurd hrk (by decide)
          | simp at hs
      · rw [litShapeStep_other hd hp] at hs ⊢
        exact ih _ _ (le_refl _) hs

theorem run1_takeWhile_digits :
    ∀ (l : List Char), (litShapeRun l .run1).isSome = true →
      (l.takeWhile isDigitDot).all Char.isDigit = true := by
  intro l
  induction l with
  | nil => intro h; simp [List.takeWhile]
  | cons c t ih =>
    intro h
    by_cases hd : c.isDigit
    · have h2 : (litShapeRun t .run1).isSome = true := by
        simpa only [litShapeRun, litShapeStep, hd, if_true] using h
      simp [List.takeWhile_cons, isDigitDot, hd, ih h2]
    · by_cases hp : c = '.'
      · simp [litShapeRun, litShapeStep, hd, hp] at h
      · simp [List.takeWhile_cons, isDigitDot, hd, hp]

theorem run0_takeWhile_decomp :
    ∀ (l : List Char), (litShapeRun l .run0).isSome = true →
      (l.takeWhile isDigitDot).all Char.isDigit = true ∨
      ∃ A B, l.takeWhile isDigitDot = A ++ '.' :: B ∧
        A.all Char.isDigit = true ∧ B.all Char.isDigit = true := by
  intro l
  induction l with
  | nil => intro h; left; simp [List.takeWhile]
  | cons c t ih =>
    intro h
    by_cases hd : c.isDigit
    · have h2 : (litShapeRun t .run0).isSome = true := by
        simpa only [litShapeRun, litShapeStep, hd, if_true] using h
      rcases ih h2 with hall | ⟨A, B, hAB, hA, hB⟩
      · left; simp [List.takeWhile_cons, isDigitDot, hd, hall]
      · right
        exact ⟨c :: A, B, by simp [List.takeWhile_cons, isDigitDot, hd, hAB],
          by simp [hd, hA], hB⟩
    · by_cases hp : c = '.'
      · have h2 : (litShapeRun t .run1).isSome = true := by
          simpa only [litShapeRun, litShapeStep, hd, hp, if_false, if_true,
            Bool.false_eq_true] using h
        right
        refine ⟨[], t.takeWhile isDigitDot, ?_, by simp, run1_takeWhile_digits t h2⟩
        simp [List.takeWhile_cons, isDigitDot, hd, hp]
      · left; simp [List.takeWhile_cons, isDigitDot, hd, hp]

theorem all_digits_takeWhile_self :
    ∀ (l : List Char), l.all Char.isDigit = true →
      l.takeWhile Char.isDigit = l ∧ l.dropWhile Char.isDigit = [] := by
  intro l
  induction l with
  | nil => intro _; simp
  | cons c t ih =>
    intro h
    simp only [List.all_cons, Bool.and_eq_true] at h
    obtain ⟨hc, ht⟩ := h
    obtain ⟨h1, h2⟩ := ih ht
    simp [List.takeWhile_cons, List.dropWhile_cons, hc, h1, h2]

theorem takeWhile_digits_prefix :
    ∀ (A B : List Char), A.all Char.isDigit = true →
      (A ++ '.' :: B).takeWhile Char.isDigit = A ∧
        (A ++ '.' :: B).dropWhile Char.isDigit = '.' :: B := by
  intro A
  induction A with
  | nil =>
    intro B _
    constructor <;> simp [List.takeWhile_cons, List.dropWhile_cons]
  | cons c t ih =>
    intro B h
    simp only [List.all_cons, Bool.and_eq_true] at h
    obtain ⟨hc, ht⟩ := h
    obtain ⟨h1, h2⟩ := ih B ht
    simp [List.takeWhile_cons, List.dropWhile_cons, hc, h1, h2]

theorem count_dot_zero {l : List Char} (h : l.all Char.isDigit = true) :
    l.count '.' = 0 := by
  refine List.count_eq_zero.mpr (fun hm => ?_)
  have := List.all_eq_true.mp h _ hm
  exact absurd this (by decide)

theorem parseFloatList_all_digits {l : List Char} (hne : l ≠ [])
    (hall : l.all Char.isDigit = true) : (parseFloatList l).isSome = true := by
  obtain ⟨ht, hd⟩ := all_digits_takeWhile_self l hall
  simp [parseFloatList, hd, ht, List.isEmpty_iff, hne]

theorem parseFloatList_point {A B : List Char} (hA : A.all Char.isDigit = true)
    (hB : B.all Char.isDigit = true) (hne : ¬(A = [] ∧ B = [])) :
    (parseFloatList (A ++ '.' :: B)).isSome = true := by
  obtain ⟨ht, hd⟩ := takeWhile_digits_prefix A B hA
  simp only [parseFloatList, hd, ht]
  rw [if_pos]
  · simp
  · rcases not_and_or.mp hne with h | h
    · have hA2 : A.isEmpty = false := by
        cases A with
        | nil => exact absurd rfl h
        | cons a t => rfl
      simp [hB, hA2]
    · have hB2 : B.isEmpty = false := by
        cases B with
        | nil => exact absurd rfl h
        | cons b t => rfl
      simp [hB, hB2]

theorem getLast?_mem_of_eq :
    ∀ (l : List Char) (x : Char), l.getLast? = some x → x ∈ l := by
  intro l
  induction l with
  | nil => intro x h; simp at h
  | cons a t ih =>
    intro x h
    cases t with
    | nil =>
      simp only [List.getLast?_singleton, Option.some.injEq] at h
      simp [h]
    | cons b t2 =>
      rw [List.getLast?_cons_cons] at h
      exact List.mem_cons_of_mem _ (ih x h)

/-- A digit-initiated literal whose run obeys the shape condition
produces a token text with at most one dot that parses as a float. -/
theorem digitBuf_good {c : Char} {rest : List Char} (hc : c.isDigit = true)
    (h : (litShapeRun rest .run0).isSome = true) :
    (digitBuf c rest).count '.' ≤ 1 ∧
      (parseFloatList (digitBuf c rest)).isSome = true := by
  rcases run0_takeWhile_decomp rest h with hall | ⟨A, B, hAB, hA, hB⟩
  · have hbufall : (c :: rest.takeWhile isDigitDot).all Char.isDigit = true := by
      simp [hc, hall]
    have hlast : ¬(c :: rest.takeWhile isDigitDot).getLast? = some '.' := by
      intro hl
      have hmem := getLast?_mem_of_eq _ _ hl
      have := List.all_eq_true.mp hbufall _ hmem
      exact absurd this (by decide)
    unfold digitBuf
    rw [if_neg hlast]
    exact ⟨by rw [count_dot_zero hbufall]; omega,
      parseFloatList_all_digits (by simp) hbufall⟩
  · by_cases hBnil : B = []
    · subst hBnil
      have hlast : (c :: rest.takeWhile isDigitDot).getLast? = some '.' := by
        rw [hAB]
        show (c :: (A ++ ['.'])).getLast? = some '.'
        rw [← List.cons_append]
        exact List.getLast?_concat _
      unfold digitBuf
      rw [if_pos hlast, hAB]
      have hshape : c :: (A ++ '.' :: []) ++ ['0'] = (c :: A) ++ '.' :: ['0'] := by simp
      rw [hshape]
      constructor
      · rw [List.count_append]
        have h1 : (c :: A).count '.' = 0 := count_dot_zero (by simp [hc, hA])
        have h2 : (('.' :: ['0']) : List Char).count '.' = 1 := by decide
        omega
      · exact parseFloatList_point (by simp [hc, hA]) (by decide) (by simp)
    · obtain ⟨b, B2, rfl⟩ : ∃ b B2, B = b :: B2 := by
        cases B with
        | nil => exact absurd rfl hBnil
        | cons b B2 => exact ⟨b, B2, rfl⟩
      have hlast : ¬(c :: rest.takeWhile isDigitDot).getLast? = some '.' := by
        rw [hAB, ← List.cons_append, List.getLast?_append_cons,
          List.getLast?_cons_cons]
        intro hl
        have hmem := getLast?_mem_of_eq _ _ hl
        have := List.all_eq_true.mp hB _ hmem
        exact absurd this (by decide)
      unfold digitBuf
      rw [if_neg hlast, hAB, ← List.cons_append]
      constructor
      · rw [List.count_append, List.count_cons_self]
        have h1 : (c :: A).count '.' = 0 := count_dot_zero (by simp [hc, hA])
        have h3 : (b :: B2).count '.' = 0 := count_dot_zero hB
        omega
      · exact parseFloatList_point (by simp [hc, hA]) hB (by simp)

theorem decChar_isDigit {d : Nat} (h : d < 10) : (decChar d).isDigit = true := by
  interval_cases d <;> decide

theorem natDigitsAux_all (fuel : Nat) :
    ∀ (n : Nat), (natDigitsAux fuel n).all Char.isDigit = true := by
  induction fuel with
  | zero => intro n; rfl
  | succ m ih =>
    intro n
    rw [natDigitsAux]
    split
    · rename_i h
      simp [decChar_isDigit h]
    · rw [List.all_append]
      simp [ih (n / 10), decChar_isDigit (Nat.mod_lt n (by norm_num))]

theorem natDigitsAux_ne_nil (fuel n : Nat) (h : fuel ≠ 0) :
    natDigitsAux fuel n ≠ [] := by
  match fuel with
  | 0 => exact absurd rfl h
  | m + 1 =>
    rw [natDigitsAux]
    split
    · simp
    · simp

/-- Lean's `Char.isWhitespace` (space, tab, CR, LF) models Rust's
`char::is_whitespace` on the ASCII inputs all theorems here use. -/
theorem whitespace_not_digit_dot {c : Char} (h : c.isWhitespace = true) :
    ¬c.isDigit = true ∧ ¬c = '.' := by
  simp only [Char.isWhitespace, Bool.or_eq_true, decide_eq_true_eq] at h
  rcases h with ((h | h) | h) | h <;> subst h <;> exact ⟨by decide, by decide⟩

theorem consToken_ok {e : Expression} {o : Option (Except Err (List Expression))}
    {es : List Expression} (h : consToken e o = some (.ok es)) :
    ∃ es2, o = some (.ok es2) ∧ es = e :: es2 := by
  match o with
  | none => simp [consToken] at h
  | some (.error er) => simp [consToken] at h
  | some (.ok es2) =>
    simp only [consToken, Option.some.injEq, Except.ok.injEq] at h
    exact ⟨es2, rfl, h.symm⟩

/-- Well-formedness of every literal token in a token sequence,
including the ones nested in groups: its text holds at most one `.`
and parses as a valid float. -/
def LiteralTokensWellFormed (es : List Expression) : Prop :=
  ∀ s ∈ unitTextsList es, s.data.count '.' ≤ 1 ∧ (parseFloat s).isSome = true

theorem tokenizeFuel_units :
    ∀ (fuel : Nat) (cs : List Char) (es : List Expression),
      (litShapeRun cs .outside).isSome = true →
      tokenizeFuel fuel cs = some (.ok es) → LiteralTokensWellFormed es := by
  intro fuel
  induction fuel with
  | zero => intro cs es _ h; simp [tokenizeFuel] at h
  | succ n ih =>
    intro cs es hshape h
    match cs with
    | [] =>
      simp only [tokenizeFuel, Option.some.injEq, Except.ok.injEq] at h
      subst h
      intro s hs
      simp [unitTextsList] at hs
    | c :: rest =>
      by_cases h1 : c.isWhitespace
      · obtain ⟨hd, hp⟩ := whitespace_not_digit_dot h1
        simp only [litShapeRun, litShapeStep_other hd hp] at hshape
        simp only [tokenizeFuel, h1, if_true] at h
        exact ih rest es hshape h
      · simp only [tokenizeFuel, h1, if_false, Bool.false_eq_true] at h
        by_cases h2 : c.isDigit
        · simp only [h2, if_true] at h
          simp only [litShapeRun, litShapeStep, h2, if_true] at hshape
          obtain ⟨es2, ho, rfl⟩ := consToken_ok h
          have hgood := digitBuf_good h2 hshape
          have h5 : (litShapeRun (rest.dropWhile isDigitDot) .outside).isSome = true := by
            have hsplit := List.takeWhile_append_dropWhile isDigitDot rest
            rw [← hsplit, litShapeRun_append] at hshape
            cases hx : litShapeRun (rest.takeWhile isDigitDot) .run0 with
            | none => rw [hx] at hshape; simp at hshape
            | some st2 =>
              rw [hx] at hshape
              exact litShapeRun_mono _ st2 .outside (Nat.zero_le _) hshape
          have hih := ih _ es2 h5 ho
          intro s hs
          simp only [unitTextsList, unitTexts, List.singleton_append,
            List.mem_cons] at hs
          rcases hs with rfl | hs
          · exact hgood
          · exact hih s hs
        · simp only [h2, if_false, Bool.false_eq_true] at h
          by_cases h3 : c = '#'
          · subst h3
            simp only [if_true] at h
            simp only [litShapeRun, litShapeStep_other (c := '#') (by decide) (by decide)]
              at hshape
            split at h
            · simp at h
            · split at h
              · simp at h
              · obtain ⟨es2, ho, rfl⟩ := consToken_ok h
                have h5 : (litShapeRun (rest.dropWhile isHexDig) .outside).isSome
                    = true := by
                  have hsplit := List.takeWhile_append_dropWhile isHexDig rest
                  rw [← hsplit, litShapeRun_append] at hshape
                  cases hx : litShapeRun (rest.takeWhile isHexDig) .outside with
                  | none => rw [hx] at hshape; simp at hshape
                  | some st2 =>
                    rw [hx] at hshape
                    exact litShapeRun_mono _ st2 .outside (Nat.zero_le _) hshape
                have hih := ih _ es2 h5 ho
                intro s hs
                simp only [unitTextsList, unitTexts, List.singleton_append,
                  List.mem_cons] at hs
                rcases hs with rfl | hs
                · have hall := natDigitsAux_all
                    (hexListVal (rest.takeWhile isHexDig) + 1)
                    (hexListVal (rest.takeWhile isHexDig))
                  have hne := natDigitsAux_ne_nil
                    (hexListVal (rest.takeWhile isHexDig) + 1)
                    (hexListVal (rest.takeWhile isHexDig)) (Nat.succ_ne_zero _)
                  refine ⟨?_, parseFloatList_all_digits hne hall⟩
                  have hdd : (natToString (hexListVal (rest.takeWhile isHexDig))).data =
                      natDigitsAux (hexListVal (rest.takeWhile isHexDig) + 1)
                        (hexListVal (rest.takeWhile isHexDig)) := rfl
                  rw [hdd, count_dot_zero hall]
                  omega
                · exact hih s hs
          · simp only [h3, if_false] at h
            by_cases h4 : c = '+'
            · subst h4
              simp only [if_true] at h
              simp only [litShapeRun, litShapeStep_other (c := '+') (by decide) (by decide)]
                at hshape
              obtain ⟨es2, ho, rfl⟩ := consToken_ok h
              have hih := ih rest es2 hshape ho
              intro s hs
              simp only [unitTextsList, unitTexts, unitTextsOpt,
                List.nil_append] at hs
              exact hih s hs
            · simp only [h4, if_false] at h
              by_cases h5 : c = '-'
              · subst h5
                simp only [if_true] at h
                simp only [litShapeRun, litShapeStep_other (c := '-') (by decide) (by decide)]
                  at hshape
                obtain ⟨es2, ho, rfl⟩ := consToken_ok h
                have hih := ih rest es2 hshape ho
                intro s hs
                simp only [unitTextsList, unitTexts, unitTextsOpt,
                  List.nil_append] at hs
                exact hih s hs
              · simp only [h5, if_false] at h
                by_cases h6 : c = '*'
                · subst h6
                  simp only [if_true] at h
                  simp only [litShapeRun,
                    litShapeStep_other (c := '*') (by decide) (by decide)] at hshape
                  obtain ⟨es2, ho, rfl⟩ := consToken_ok h
                  have hih := ih rest es2 hshape ho
                  intro s hs
                  simp only [unitTextsList, unitTexts, unitTextsOpt,
                    List.nil_append] at hs
                  exact hih s hs
                · simp only [h6, if_false] at h
                  by_cases h7 : c = '/'
                  · subst h7
                    simp only [if_true] at h
                    simp only [litShapeRun,
                      litShapeStep_other (c := '/') (by decide) (by decide)] at hshape
                    obtain ⟨es2, ho, rfl⟩ := consToken_ok h
                    have hih := ih rest es2 hshape ho
                    intro s hs
                    simp only [unitTextsList, unitTexts, unitTextsOpt,
                      List.nil_append] at hs
                    exact hih s hs
                  · simp only [h7, if_false] at h
                    by_cases h8 : c = '%'
                    · subst h8
                      simp only [if_true] at h
                      simp only [litShapeRun,
                        litShapeStep_other (c := '%') (by decide) (by decide)] at hshape
                      obtain ⟨es2, ho, rfl⟩ := consToken_ok h
                      have hih := ih rest es2 hshape ho
                      intro s hs
                      simp only [unitTextsList, unitTexts, unitTextsOpt,
                        List.nil_append] at hs
                      exact hih s hs
                    · simp only [h8, if_false] at h
                      by_cases h9 : c = '^'
                      · subst h9
                        simp only [if_true] at h
                        simp only [litShapeRun,
                          litShapeStep_other (c := '^') (by decide) (by decide)] at hshape
                        obtain ⟨es2, ho, rfl⟩ := consToken_ok h
                        have hih := ih rest es2 hshape ho
                        intro s hs
                        simp only [unitTextsList, unitTexts, unitTextsOpt,
                          List.nil_append] at hs
                        exact hih s hs
                      · simp only [h9, if_false] at h
                        by_cases h10 : c = '~'
                        · subst h10
                          simp only [if_true] at h
                          simp only [litShapeRun,
                            litShapeStep_other (c := '~') (by decide) (by decide)] at hshape
                          obtain ⟨es2, ho, rfl⟩ := consToken_ok h
                          have hih := ih rest es2 hshape ho
                          intro s hs
                          simp only [unitTextsList, unitTexts, unitTextsOpt,
                            List.nil_append] at hs
                          exact hih s hs
                        · simp only [h10, if_false] at h
                          by_cases h11 : c = '('
                          · subst h11
                            simp only [if_true] at h
                            simp only [litShapeRun,
                              litShapeStep_other (c := '(') (by decide) (by decide)] at hshape
                            split at h
                            · simp at h
                            · rename_i pr buf rem hcap
                              have hcon := captureGroup_concat rest 0 buf rem hcap
                              rw [← hcon, litShapeRun_append] at hshape
                              split at h
                              · simp at h
                              · simp at h
                              · rename_i body htb
                                obtain ⟨es2, ho, rfl⟩ := consToken_ok h
                                cases hx : litShapeRun buf .outside with
                                | none => rw [hx] at hshape; simp at hshape
                                | some stB =>
                                  rw [hx] at hshape
                                  simp only [litShapeRun,
                                    litShapeStep_other (c := ')') (by decide)
                                      (by decide)] at hshape
                                  have hbufW := ih buf body (by rw [hx]; rfl) htb
                                  have hremW := ih rem es2 hshape ho
                                  intro s hs
                                  simp only [unitTextsList, unitTexts,
                                    List.mem_append] at hs
                                  rcases hs with hs | hs
                                  · exact hbufW s hs
                                  · exact hremW s hs
                          · simp only [h11, if_false] at h
                            by_cases h12 : c = ')'
                            · simp [h12] at h
                            · simp [h12] at h


/-! ### Claim theorems -/

/-- C1: The specification claims the evaluator's internal-inconsistency
branch ("unhandled expression") is unreachable once parsing succeeded
and resolution ran.  The code violates this: on input `"2^*"` parsing
succeeds, resolution succeeds — the tier-1 pass binds the still-unset
`Mul` placeholder as `Pow`'s right operand, and the tier-2 pass never
sees it because `resolve` scans only top-level elements — and
evaluation then reaches the catch-all branch, returning the
internal-inconsistency error. -/
theorem c1_internal_inconsistency_reachable :
    Expression.root "2^*" =
      .ok (.Group [.Unit "2", .Pow none none, .Mul none none]) ∧
    resolve [.Unit "2", .Pow none none, .Mul none none] =
      .ok [.Pow (some (.Unit "2")) (some (.Mul none none))] ∧
    evaluateString "2^*" = .error .unhandledExpression := by
  refine ⟨rfl, rfl, ?_⟩
  with_unfolding_all rfl

/-- C2: On every input whose digit-initiated literal runs contain at
most one embedded `.` (`litShapeOK`), tokenization emits only literal
tokens whose text holds at most one `.` and parses as a valid float
(a consumed literal ending in `.` gets a trailing `0` appended, which
keeps it parseable). -/
theorem c2_literal_tokens_wellformed (s : String) (es : List Expression)
    (hshape : litShapeOK s = true) (h : tokenize s = .ok es) :
    LiteralTokensWellFormed es := by
  have h2 : tokenizeFuel (s.data.length + 1) s.data = some (.ok es) := by
    rw [← h]
    exact (Option.some_get _).symm
  exact tokenizeFuel_units _ s.data es hshape h2

/-- Witness for C2 at the concrete input `"1.5+2."`: its shape is
accepted, tokenization yields the literals `"1.5"` and (after the
trailing-zero fix-up) `"2.0"`, and both are well-formed. -/
theorem c2_literal_tokens_wellformed_witness :
    LiteralTokensWellFormed [.Unit "1.5", .Add none none, .Unit "2.0"] :=
  c2_literal_tokens_wellformed "1.5+2." _ (by decide) rfl

/-- C3: three-tier operator precedence with parentheses overriding it:
`2+3*4` evaluates to `14` and `(2+3)*4` to `20`. -/
theorem c3_precedence :
    evaluateString "2+3*4" = .ok 14 ∧ evaluateString "(2+3)*4" = .ok 20 :=
  ⟨by with_unfolding_all rfl, by with_unfolding_all rfl⟩

/-- C4: same-tier operators bind left-associatively, exponentiation
included: `8-3-2` resolves to `(8-3)-2 = 3` and `2^3^2` to
`(2^3)^2 = 64` (not the right-associative `512`); the `resolve`
conjuncts exhibit the left-nested trees. -/
theorem c4_left_associativity :
    evaluateString "8-3-2" = .ok 3 ∧
    resolve [.Unit "8", .Sub none none, .Unit "3", .Sub none none, .Unit "2"] =
      .ok [.Sub (some (.Sub (some (.Unit "8")) (some (.Unit "3"))))
        (some (.Unit "2"))] ∧
    evaluateString "2^3^2" = .ok 64 ∧
    resolve [.Unit "2", .Pow none none, .Unit "3", .Pow none none, .Unit "2"] =
      .ok [.Pow (some (.Pow (some (.Unit "2")) (some (.Unit "3"))))
        (some (.Unit "2"))] :=
  ⟨by with_unfolding_all rfl, rfl, by with_unfolding_all rfl, rfl⟩

/-- C5: each malformed input produces its specific error kind (and,
the functions being total, never a panic): unterminated group, missing
right operand, missing left operand (no implicit identity for `*`),
unresolved expression for adjacent literals, and unexpected
character. -/
theorem c5_malformed_inputs :
    evaluateString "(1+2" = .error .unterminatedGroup ∧
    evaluateString "1+" = .error .missingRHS ∧
    evaluateString "*5" = .error .missingLHS ∧
    evaluateString "1 2" = .error .unresolvedExpression ∧
    evaluateString "1+&" = .error (.unexpectedChar '&') :=
  ⟨by with_unfolding_all rfl, by with_unfolding_all rfl,
    by with_unfolding_all rfl, by with_unfolding_all rfl,
    by with_unfolding_all rfl⟩

theorem parseParams_cons_zero (x r : Expression) (rest : List Expression) :
    parseParams (x :: r :: rest) 0 = bindOp (x :: rest) 0 none r := by
  unfold parseParams
  rw [if_neg (by simp)]
  simp only [Nat.zero_add, List.getElem?_cons_succ, List.getElem?_cons_zero,
    List.eraseIdx_cons_succ, List.eraseIdx_cons_zero]
  simp

/-- C6: an `Add`/`Sub` operator at position `0` of its sequence is
bound with the implicit literal-zero left operand (unary sign), so
`-5+3` evaluates to `-2`; for `Mul`, `Div`, `Mod`, `Pow` and `Root`
at position `0` the reduction instead fails with the
missing-left-hand-side error. -/
theorem c6_implicit_zero_unary :
    evaluateString "-5+3" = .ok (-2) ∧
    (∀ (l0 r0 : Option Expression) (r : Expression) (rest : List Expression),
      parseParams (.Add l0 r0 :: r :: rest) 0 =
        .ok (.Add (some (.Unit "0")) (some r) :: rest)) ∧
    (∀ (l0 r0 : Option Expression) (r : Expression) (rest : List Expression),
      parseParams (.Sub l0 r0 :: r :: rest) 0 =
        .ok (.Sub (some (.Unit "0")) (some r) :: rest)) ∧
    (∀ (l0 r0 : Option Expression) (r : Expression) (rest : List Expression),
      parseParams (.Mul l0 r0 :: r :: rest) 0 = .error .missingLHS) ∧
    (∀ (l0 r0 : Option Expression) (r : Expression) (rest : List Expression),
      parseParams (.Div l0 r0 :: r :: rest) 0 = .error .missingLHS) ∧
    (∀ (l0 r0 : Option Expression) (r : Expression) (rest : List Expression),
      parseParams (.Mod l0 r0 :: r :: rest) 0 = .error .missingLHS) ∧
    (∀ (l0 r0 : Option Expression) (r : Expression) (rest : List Expression),
      parseParams (.Pow l0 r0 :: r :: rest) 0 = .error .missingLHS) ∧
    (∀ (l0 r0 : Option Expression) (r : Expression) (rest : List Expression),
      parseParams (.Root l0 r0 :: r :: rest) 0 = .error .missingLHS) :=
  ⟨by with_unfolding_all rfl,
    fun l0 r0 r rest => by rw [parseParams_cons_zero]; simp [bindOp],
    fun l0 r0 r rest => by rw [parseParams_cons_zero]; simp [bindOp],
    fun l0 r0 r rest => by rw [parseParams_cons_zero]; simp [bindOp],
    fun l0 r0 r rest => by rw [parseParams_cons_zero]; simp [bindOp],
    fun l0 r0 r rest => by rw [parseParams_cons_zero]; simp [bindOp],
    fun l0 r0 r rest => by rw [parseParams_cons_zero]; simp [bindOp],
    fun l0 r0 r rest => by rw [parseParams_cons_zero]; simp [bindOp]⟩

/-- C7: resolution terminates on every finite sequence: a fuel of
`length + 1` suffices for each of the three tier loops (they never
exhaust their fuel), because every successful `parse_params` reduction
strictly shrinks the sequence. -/
theorem c7_resolve_terminates :
    (∀ body : List Expression,
      (resolveTierFuel unresolvedTierA (body.length + 1) body).isSome = true) ∧
    (∀ body : List Expression,
      (resolveTierFuel unresolvedTierB (body.length + 1) body).isSome = true) ∧
    (∀ body : List Expression,
      (resolveTierFuel unresolvedTierC (body.length + 1) body).isSome = true) ∧
    (∀ (body : List Expression) (i : Nat),
      match parseParams body i with
      | .ok body2 => body2.length < body.length
      | .error _ => True) := by
  refine ⟨fun body => resolveTierFuel_isSome _ _ _ (Nat.lt_succ_self _),
    fun body => resolveTierFuel_isSome _ _ _ (Nat.lt_succ_self _),
    fun body => resolveTierFuel_isSome _ _ _ (Nat.lt_succ_self _),
    fun body i => ?_⟩
  cases hpp : parseParams body i with
  | ok body2 => exact (parseParams_shrink hpp).1
  | error e => exact trivial

/-- C8: a resolved `Root` node evaluates to `right ^ (1 / left)` — the
left operand is the root index — and concretely `2~9` evaluates to
`3`, the square root of `9`. -/
theorem c8_root_is_inverse_power :
    (∀ l r : Expression, Expression.eval (.Root (some l) (some r)) =
      (match Expression.eval l with
      | .error e => .error e
      | .ok a =>
        match Expression.eval r with
        | .error e => .error e
        | .ok b => .ok (powf b (1 / a)))) ∧
    evaluateString "2~9" = .ok 3 := by
  constructor
  · intro l r
    have hwl : weight l < weight (Expression.Root (some l) (some r)) := by
      simp only [weight, weightOpt]
      have := weight_pos r
      omega
    have hwr : weight r < weight (Expression.Root (some l) (some r)) := by
      simp only [weight, weightOpt]
      have := weight_pos l
      omega
    have h1 : evalFuel (weight (Expression.Root (some l) (some r)) + 1)
        (.Root (some l) (some r)) =
        some (Expression.eval (.Root (some l) (some r))) :=
      (Option.some_get _).symm
    have h2 : evalFuel (weight (Expression.Root (some l) (some r)) + 1)
        (.Root (some l) (some r)) =
        evalBin (some (Expression.eval l)) (some (Expression.eval r))
          (fun a b => powf b (1 / a)) := by
      show evalBin (evalFuel (weight (Expression.Root (some l) (some r))) l)
        (evalFuel (weight (Expression.Root (some l) (some r))) r)
        (fun a b => powf b (1 / a)) = _
      rw [evalFuel_eq_eval hwl, evalFuel_eq_eval hwr]
    rw [h2] at h1
    cases hX : Expression.eval l with
    | error e =>
      rw [hX] at h1
      simp only [evalBin, Option.some.injEq] at h1
      exact h1.symm
    | ok a =>
      rw [hX] at h1
      cases hY : Expression.eval r with
      | error e =>
        rw [hY] at h1
        simp only [evalBin, Option.some.injEq] at h1
        exact h1.symm
      | ok b =>
        rw [hY] at h1
        simp only [evalBin, Option.some.injEq] at h1
        exact h1.symm
  · with_unfolding_all rfl

/-- C9: a `#` token greedily captures hexadecimal digits, converts
them from base 16 and emits a literal holding the decimal text
(`#ff` becomes the literal `"255"` and evaluates to `255`); an empty
capture (`"#"`, or `"#g"` whose `g` is not a hex digit) fails, as does
a capture exceeding `u64::MAX`. -/
theorem c9_hex_literals :
    tokenize "#ff" = .ok [.Unit "255"] ∧
    evaluateString "#ff" = .ok 255 ∧
    evaluateString "#ff+1" = .ok 256 ∧
    tokenize "#" = .error .invalidHex ∧
    tokenize "#g" = .error .invalidHex ∧
    tokenize "#10000000000000000" = .error .invalidHex :=
  ⟨rfl, by with_unfolding_all rfl, by with_unfolding_all rfl, rfl, rfl, rfl⟩

/-- C10: the empty string and every whitespace-only input parse
successfully into a group with an empty body, and evaluating that
group fails with the ordinary unresolved-expression error (no
non-empty-input precondition, no out-of-bounds access). -/
theorem c10_empty_and_whitespace_inputs (s : String)
    (h : s.data.all Char.isWhitespace = true) :
    Expression.root s = .ok (.Group []) ∧
    evaluateString s = .error .unresolvedExpression := by
  have htok : ∀ (fuel : Nat) (cs : List Char), cs.length < fuel →
      cs.all Char.isWhitespace = true → tokenizeFuel fuel cs = some (.ok []) := by
    intro fuel
    induction fuel with
    | zero => intro cs h1 _; omega
    | succ n ih =>
      intro cs h1 h2
      match cs with
      | [] => rfl
      | c :: rest =>
        simp only [List.all_cons, Bool.and_eq_true] at h2
        simp only [List.length_cons] at h1
        simp only [tokenizeFuel, h2.1, if_true]
        exact ih rest (by omega) h2.2
  have h2 : tokenize s = .ok [] := by
    have h3 := htok (s.data.length + 1) s.data (Nat.lt_succ_self _) h
    apply Option.some.inj
    rw [← h3]
    exact Option.some_get _
  constructor
  · unfold Expression.root
    rw [h2]
  · unfold evaluateString Expression.root
    rw [h2]
    rfl

/-- Witness for C10 at the empty input and at a one-space input. -/
theorem c10_empty_and_whitespace_inputs_witness :
    (Expression.root "" = .ok (.Group []) ∧
      evaluateString "" = .error .unresolvedExpression) ∧
    (Expression.root " " = .ok (.Group []) ∧
      evaluateString " " = .error .unresolvedExpression) :=
  ⟨c10_empty_and_whitespace_inputs "" (by decide),
    c10_empty_and_whitespace_inputs " " (by decide)⟩
